import Mathlib

/-!
Verification of the fragment pipeline of the news-extraction repository:
the chunker (`split_text_into_chunks`), the merger (`merge_news_results`
with its inner `deduplicate`), the per-chunk extraction drivers
(`extract_from_chunk` / `process_chunk`), the asyncio-gather worker pool,
and the consolidation stage (`NewsExtractor.consolidate_results` /
`NewsExtractor.run`).

Texts are modelled as `List Char`.  Python `str.strip()` is modelled by
`pyStrip` (drop leading and trailing whitespace), `str.lower()` by
`pyLower` (character-wise `Char.toLower`, which models Python lowering on
the ASCII range used by the entities handled here), and Python slicing
`text[a:b]` on arbitrary integers by `pySlice` (negative indices count
from the end, out-of-range indices are clamped, exactly as in Python).

Raising code is modelled with `Except String`; a possibly non-terminating
loop is modelled with explicit fuel, `none` meaning that the loop has not
finished within the given fuel.
-/

namespace NewsPipeline

abbrev Str := List Char

/-- Python index normalization for a slice bound `i` on a string of length
`n`: negative indices count from the end and everything is clamped to
`[0, n]`. -/
def pyIndex (n : Nat) (i : Int) : Nat :=
  (if i < 0 then max ((n : Int) + i) 0 else min i n).toNat

/-- Python slice `t[a:b]` for arbitrary integer bounds. -/
def pySlice (t : Str) (a b : Int) : Str :=
  (t.take (pyIndex t.length b)).drop (pyIndex t.length a)

/-- Drop trailing whitespace (the right half of Python `str.strip()`). -/
def pyStripRight (s : Str) : Str :=
  (s.reverse.dropWhile Char.isWhitespace).reverse

/-- Python `str.strip()`: drop leading and trailing whitespace. -/
def pyStrip (s : Str) : Str :=
  (pyStripRight s).dropWhile Char.isWhitespace

/-- Python `str.lower()` (on the ASCII range). -/
def pyLower (s : Str) : Str := s.map Char.toLower

/-- The normalized dedup key `item.strip().lower()` used by
`merge_news_results.deduplicate`. -/
def pyNorm (s : Str) : Str := pyLower (pyStrip s)

/-!
## Chunker: `split_text_into_chunks` (src/chunked_news_extraction.py)

```python
chunks = []
start = 0
while start < len(text):
    end = start + chunk_size
    chunk = text[start:end]
    chunks.append(chunk)
    start = end - overlap
return chunks
```

The loop variable `start` is a Python integer (it can become negative when
`overlap > chunk_size`), so it is modelled as `Int`; the loop itself is
modelled with fuel, `none` meaning the loop has not returned within
`fuel` iterations.  The function has no error path: the source raises no
exception for any configuration.
-/

/-- One fueled evaluation of the `while start < len(text)` loop of
`split_text_into_chunks`, started at `start`. -/
def splitGoInt (text : Str) (chunk_size overlap : Int) :
    Nat → Int → Option (List Str)
  | 0, _ => none
  | fuel + 1, start =>
    if start < (text.length : Int) then
      match splitGoInt text chunk_size overlap fuel (start + chunk_size - overlap) with
      | some rest => some (pySlice text start (start + chunk_size) :: rest)
      | none => none
    else
      some []

/-- `split_text_into_chunks(text, chunk_size, overlap)`, run with `fuel`
loop iterations; `none` means the loop has not terminated. -/
def split_text_into_chunks (fuel : Nat) (text : Str) (chunk_size overlap : Int) :
    Option (List Str) :=
  splitGoInt text chunk_size overlap fuel 0

/-- A chunk together with the half-open source range it was cut from;
`text = source[start_offset:end_offset]` and the offsets are the values
of the loop variables of `split_text_into_chunks` (clipped to the text
length). -/
structure Chunk where
  start_offset : Nat
  end_offset : Nat
  text : Str
deriving DecidableEq

/-- The chunk emitted by one iteration of the `split_text_into_chunks`
loop at offset `start`: `text[start:start+chunk_size]` with its range. -/
def mkChunk (text : Str) (chunk_size start : Nat) : Chunk :=
  { start_offset := start
    end_offset := min (start + chunk_size) text.length
    text := (text.drop start).take chunk_size }

/-- The `split_text_into_chunks` loop restricted to a valid configuration
(`overlap < chunk_size`), with the emitted chunks annotated with their
source ranges.  `fuel` is structural; `text.length + 1` iterations always
suffice when `overlap < chunk_size` (each step advances `start` by
`chunk_size - overlap ≥ 1`), which `split_chunks_int_agree` below proves
against the fueled integer model. -/
def split_chunks_go (text : Str) (chunk_size overlap : Nat) :
    Nat → Nat → List Chunk
  | 0, _ => []
  | fuel + 1, start =>
    if start < text.length then
      mkChunk text chunk_size start ::
        split_chunks_go text chunk_size overlap fuel (start + chunk_size - overlap)
    else
      []

/-- `split_text_into_chunks` for a valid configuration, producing chunks
with their source ranges. -/
def split_chunks (text : Str) (chunk_size overlap : Nat) : List Chunk :=
  split_chunks_go text chunk_size overlap (text.length + 1) 0

/-!
## Data model and merger (src/chunked_news_extraction.py)
-/

/-- The `News` record: one partial extraction result
(`companies`/`persons`/`events`; the type has no other field — in
particular no `failed` flag exists in the source). -/
structure News where
  companies : List Str
  persons : List Str
  events : List Str
deriving DecidableEq

/-- `News()` with the pydantic `default_factory=list` defaults: all three
lists empty (returned by `NewsExtractor.process_chunk` on failure). -/
def emptyNews : News := ⟨[], [], []⟩

/-- The `ConsolidatedNews` record of the consolidation stage.  `summary`
is a required string field in the source. -/
structure ConsolidatedNews where
  summary : Str
  companies : List Str
  persons : List Str
  events : List Str
deriving DecidableEq

/-- The flattening loop of `merge_news_results`:
`for result in results: all_xs.extend(f(result))`. -/
def allOf (f : News → List Str) (results : List News) : List Str :=
  results.foldl (fun acc r => acc ++ f r) []

/-- The seen-set loop of `deduplicate` inside `merge_news_results`:

```python
seen = set(); unique = []
for item in items:
    item_normalized = item.strip().lower()
    if item_normalized and item_normalized not in seen:
        seen.add(item_normalized)
        unique.append(item.strip())
return unique
```

The Python set `seen` is modelled as the list of keys added so far (only
membership is used). -/
def dedupGo (seen : List Str) : List Str → List Str
  | [] => []
  | item :: rest =>
    if pyNorm item ≠ [] ∧ pyNorm item ∉ seen then
      pyStrip item :: dedupGo (pyNorm item :: seen) rest
    else
      dedupGo seen rest

/-- `deduplicate(items)` of `merge_news_results`. -/
def deduplicate (items : List Str) : List Str := dedupGo [] items

/-- `merge_news_results(results)`: flatten each category over `results`
in order, then deduplicate. -/
def merge_news_results (results : List News) : News :=
  { companies := deduplicate (allOf News.companies results)
    persons := deduplicate (allOf News.persons results)
    events := deduplicate (allOf News.events results) }

/-!
## Extraction drivers

`extract_from_chunk` (src/chunked_news_extraction.py) invokes the model
chain, then parses; a parse failure is caught and converted to an empty
`News`, while a raised invocation error propagates.  The external chain
invocation and the parser are injected as `invoke` and `parse`.
-/

/-- `extract_from_chunk(llm, parser, chunk, _)`: `invoke` models
`chain.invoke` (may raise), `parse` models `parser.parse` (its failure is
caught and yields an empty `News`). -/
def extract_from_chunk (invoke : Str → Except String Str)
    (parse : Str → Except String News) (chunk : Str) : Except String News :=
  match invoke chunk with
  | .error e => .error e
  | .ok content =>
    match parse content with
    | .ok news => .ok news
    | .error _ => .ok emptyNews

/-- The per-chunk loop of `run_news_extraction`
(src/chunked_news_extraction.py): a chunk whose extraction raises is
skipped (`except ...: continue`), so its entry is simply missing from
`results`. -/
def run_news_extraction_results (invoke : Str → Except String Str)
    (parse : Str → Except String News) (chunks : List Str) : List News :=
  chunks.filterMap fun c => (extract_from_chunk invoke parse c).toOption

/-!
## Async worker pool (src/test/news_extraction_playwright_test.py)

`NewsExtractor.process_chunk` wraps the whole invoke-and-parse in a
`try/except` and returns `News()` on any failure, so it never raises;
`extract` below models the awaited invoke-and-parse as a whole.
`asyncio.gather(*tasks)` stores each task's result at the slot of the
task's position in the argument list when it completes, and returns the
slots in argument order; completion order is modelled as the list of task
indices in the order they finish.
-/

/-- `NewsExtractor.process_chunk`: run the extraction, catch any failure
and return `News()` (all lists empty). -/
def process_chunk (extract : Str → Except String News) (chunk : Str) : News :=
  match extract chunk with
  | .ok news => news
  | .error _ => emptyNews

/-- The sequence of results the pool hands back: one `process_chunk`
result per chunk, in chunk order (the value `asyncio.gather` returns). -/
def worker_pool_results (chunks : List Str) (extract : Str → Except String News) :
    List News :=
  chunks.map (process_chunk extract)

/-- The slot-filling of `asyncio.gather`: starting from `n` empty slots,
each completing task `i` writes its result into slot `i`, in completion
order `order`. -/
def gather_collect (n : Nat) (f : Nat → News) (order : List Nat) :
    List (Option News) :=
  order.foldl (fun acc i => acc.set i (some (f i))) (List.replicate n none)

/-- The worker pool run under an explicit completion order: task `i`
computes `process_chunk` on chunk `i` and stores it in slot `i` when it
completes. -/
def worker_pool_run (chunks : List Str) (extract : Str → Except String News)
    (order : List Nat) : List (Option News) :=
  gather_collect chunks.length
    (fun i => process_chunk extract (chunks.getD i [])) order

/-!
## Consolidation stage (src/test/news_extraction_playwright_test.py)

`NewsExtractor.consolidate_results` flattens the raw results into Python
sets, invokes the consolidation chain once and parses its answer; both
the invocation and the parse are modelled by the injected `consolidate`.
Neither `consolidate_results` nor `NewsExtractor.run` contains a
`try/except` around this call, so a failure propagates.  The Python
`list(set(...))` is modelled keeping the first occurrence of each
element (the set iteration order itself is unspecified).
-/

/-- `list(set(items))`, modelled with first-occurrence order. -/
def pySetList (items : List Str) : List Str :=
  items.foldl (fun acc x => if x ∈ acc then acc else acc ++ [x]) []

/-- `NewsExtractor.consolidate_results(raw_results)`: build the three raw
entity sets and hand them to the consolidation primitive; its result —
including a raised error or a parse failure — is returned unchanged. -/
def consolidate_results
    (consolidate : List Str → List Str → List Str → Except String ConsolidatedNews)
    (raw_results : List News) : Except String ConsolidatedNews :=
  consolidate (pySetList (allOf News.companies raw_results))
    (pySetList (allOf News.persons raw_results))
    (pySetList (allOf News.events raw_results))

/-- `NewsExtractor.run(url)` after the content has been loaded: empty
content returns `None` early; otherwise split, gather the per-chunk
results, and consolidate — an error raised by the consolidation stage
propagates out of `run`.  The splitter (an external
`RecursiveCharacterTextSplitter`) is injected. -/
def NewsExtractor_run (splitter : Str → List Str)
    (extract : Str → Except String News)
    (consolidate : List Str → List Str → List Str → Except String ConsolidatedNews)
    (content : Str) : Except String (Option ConsolidatedNews) :=
  if content = [] then
    .ok none
  else
    match consolidate_results consolidate (worker_pool_results (splitter content) extract) with
    | .error e => .error e
    | .ok final => .ok (some final)

/-!
## Reference description of the dedup loop, and concrete test inputs
-/

/-- Reference formulation of the merger's dedup, following the spec's
words: iterate in order, drop entries whose normalized key (trim +
case-fold) is empty, keep the trimmed first original-cased occurrence of
each key and drop every later entry with the same key.  `deduplicate` is
proved equal to this function. -/
def dedupSpecFirst : List Str → List Str
  | [] => []
  | x :: xs =>
    if pyNorm x = [] then dedupSpecFirst xs
    else pyStrip x :: dedupSpecFirst (xs.filter fun y => decide (pyNorm y ≠ pyNorm x))
termination_by l => l.length
decreasing_by
· simp only [List.length_cons]
  exact Nat.lt_succ_self _
· simp only [List.length_cons]
  exact Nat.lt_succ_of_le (List.length_filter_le _ _)

/-- The invariant of every category list produced by
`merge_news_results`: entries are nonempty, carry no leading or trailing
whitespace, and have pairwise distinct normalized keys. -/
def cleanList (l : List Str) : Prop :=
  (∀ x ∈ l, x ≠ [] ∧ pyStrip x = x) ∧
    l.Pairwise (fun a b => pyNorm a ≠ pyNorm b)

/-- Test extraction primitive: wraps the chunk itself as a company. -/
def extractEcho : Str → Except String News := fun c => .ok ⟨[c], [], []⟩

/-- Test extraction primitive failing exactly on the chunk `"a"`. -/
def extractFailOnA : Str → Except String News := fun c =>
  if c = "a".toList then .error "boom" else .ok ⟨["Beta".toList], [], []⟩

/-- Test chain invocation failing exactly on the chunk `"a"`. -/
def invokeFailOnA : Str → Except String Str := fun c =>
  if c = "a".toList then .error "boom" else .ok "parsed".toList

/-- Test parser returning a fixed company list. -/
def parseBeta : Str → Except String News := fun _ => .ok ⟨["Beta".toList], [], []⟩

/-- Test consolidation primitive that always fails. -/
def consolidateFail : List Str → List Str → List Str → Except String ConsolidatedNews :=
  fun _ _ _ => .error "boom"

/-- Test splitter producing a single chunk. -/
def splitterSingleton : Str → List Str := fun c => [c]

/-!
## Chunker lemmas
-/

/-- Python slicing `text[start:start+chunk_size]` at a nonnegative start
is `take`/`drop`. -/
theorem pySlice_natCast (t : Str) (s c : Nat) :
    pySlice t (s : Int) ((s : Int) + (c : Int)) = (t.drop s).take c := by
  have hb : pyIndex t.length ((s : Int) + (c : Int)) = min (s + c) t.length := by
    simp [pyIndex]
    omega
  have ha : pyIndex t.length (s : Int) = min s t.length := by
    simp [pyIndex]
    omega
  rw [pySlice, ha, hb]
  by_cases hs : s ≤ t.length
  · rw [Nat.min_eq_left hs, List.drop_take]
    have hlen : (t.drop s).length = t.length - s := List.length_drop s t
    rcases Nat.le_total (s + c) t.length with hc | hc
    · rw [Nat.min_eq_left hc]
      congr 1
      omega
    · rw [Nat.min_eq_right hc]
      rw [List.take_of_length_le (by omega), List.take_of_length_le (by omega)]
  · have hs' : t.length ≤ s := by omega
    rw [Nat.min_eq_right hs', Nat.min_eq_right (by omega)]
    rw [List.drop_eq_nil_of_le (by simp), List.drop_eq_nil_of_le hs', List.take_nil]

/-- For a valid configuration the fueled integer model of the source loop
terminates within `text.length + 1` iterations and produces exactly the
texts of `split_chunks_go`: the annotated splitter is the source loop. -/
theorem splitGoInt_agree (text : Str) {cs ov : Nat} (h : ov < cs) :
    ∀ (fuel start : Nat), text.length - start < fuel →
      splitGoInt text (cs : Int) (ov : Int) fuel (start : Int) =
        some ((split_chunks_go text cs ov fuel start).map Chunk.text) := by
  intro fuel
  induction fuel with
  | zero => omega
  | succ fuel ih =>
    intro start hfuel
    by_cases hs : start < text.length
    · have hcast : ((start : Int) + (cs : Int) - (ov : Int)) = ((start + cs - ov : Nat) : Int) := by
        omega
      rw [splitGoInt, if_pos (by exact_mod_cast hs), hcast,
        ih (start + cs - ov) (by omega)]
      rw [split_chunks_go, if_pos hs]
      simp [mkChunk, pySlice_natCast]
    · rw [splitGoInt, if_neg (by exact_mod_cast hs), split_chunks_go, if_neg hs]
      rfl

/-- `split_chunks` agrees with `split_text_into_chunks` on every valid
configuration: the range annotations are ghost data only. -/
theorem split_chunks_models_loop (text : Str) {cs ov : Nat} (h : ov < cs) :
    split_text_into_chunks (text.length + 1) text (cs : Int) (ov : Int) =
      some ((split_chunks text cs ov).map Chunk.text) :=
  splitGoInt_agree text h (text.length + 1) 0 (by omega)

/-- On an invalid configuration (`chunk_size ≤ overlap`) and nonempty
text, the `split_text_into_chunks` loop started at a nonpositive offset
never terminates. -/
theorem splitGoInt_invalid_none (text : Str) (cs ov : Int) (hov : cs ≤ ov)
    (htext : text ≠ []) :
    ∀ (fuel : Nat) (start : Int), start ≤ 0 →
      splitGoInt text cs ov fuel start = none := by
  have hlen : 0 < text.length := List.length_pos.mpr htext
  intro fuel
  induction fuel with
  | zero => intro start _; rfl
  | succ fuel ih =>
    intro start hstart
    rw [splitGoInt, if_pos (by omega), ih (start + cs - ov) (by omega)]

/-- Every position of the text from `start` on is covered by a chunk of
`split_chunks_go`. -/
theorem split_chunks_go_covers (text : Str) {cs ov : Nat} (h : ov < cs) :
    ∀ (fuel start : Nat), text.length - start < fuel →
      ∀ k, start ≤ k → k < text.length →
        ∃ c ∈ split_chunks_go text cs ov fuel start,
          c.start_offset ≤ k ∧ k < c.end_offset := by
  intro fuel
  induction fuel with
  | zero => omega
  | succ fuel ih =>
    intro start hfuel k hk hkn
    have hs : start < text.length := by omega
    rw [split_chunks_go, if_pos hs]
    by_cases hin : k < start + cs
    · exact ⟨mkChunk text cs start, List.mem_cons_self _ _,
        by simp [mkChunk]; omega⟩
    · obtain ⟨c, hc, hcov⟩ :=
        ih (start + cs - ov) (by omega) k (by omega) hkn
      exact ⟨c, List.mem_cons_of_mem _ hc, hcov⟩

/-- Every chunk range of `split_chunks_go` ends within the text. -/
theorem split_chunks_go_inrange (text : Str) (cs ov : Nat) :
    ∀ (fuel start : Nat) (c : Chunk),
      c ∈ split_chunks_go text cs ov fuel start → c.end_offset ≤ text.length := by
  intro fuel
  induction fuel with
  | zero => intro start c hc; simp [split_chunks_go] at hc
  | succ fuel ih =>
    intro start c hc
    rw [split_chunks_go] at hc
    by_cases hs : start < text.length
    · rw [if_pos hs] at hc
      rcases List.mem_cons.mp hc with hc | hc
      · subst hc; simp [mkChunk]
      · exact ih _ c hc
    · rw [if_neg hs] at hc
      simp at hc

/-- The `k`-th chunk of `split_chunks` starts at `k * (chunk_size -
overlap)` and exists exactly when that offset is inside the text. -/
theorem split_chunks_getElem? (text : Str) {cs ov : Nat} (h : ov < cs) :
    ∀ (k fuel start : Nat), text.length - start < fuel →
      (split_chunks_go text cs ov fuel start)[k]? =
        if start + k * (cs - ov) < text.length
        then some (mkChunk text cs (start + k * (cs - ov)))
        else none := by
  intro k
  induction k with
  | zero =>
    intro fuel start hfuel
    match fuel with
    | 0 => omega
    | fuel + 1 =>
      by_cases hs : start < text.length
      · simp [split_chunks_go, hs]
      · simp [split_chunks_go, hs]
  | succ k ih =>
    intro fuel start hfuel
    match fuel with
    | 0 => omega
    | fuel + 1 =>
      by_cases hs : start < text.length
      · rw [split_chunks_go, if_pos hs, List.getElem?_cons_succ,
          ih fuel (start + cs - ov) (by omega)]
        have e : start + cs - ov + k * (cs - ov) = start + (k + 1) * (cs - ov) := by
          rw [Nat.succ_mul]
          generalize k * (cs - ov) = a
          omega
        rw [e]
      · rw [split_chunks_go, if_neg hs]
        have : ¬ (start + (k + 1) * (cs - ov) < text.length) := by
          generalize (k + 1) * (cs - ov) = a
          omega
        simp [this]

/-- `split_chunks_getElem?` specialized to the whole run. -/
theorem split_chunks_getElem?_zero (text : Str) {cs ov : Nat} (h : ov < cs) (k : Nat) :
    (split_chunks text cs ov)[k]? =
      if k * (cs - ov) < text.length
      then some (mkChunk text cs (k * (cs - ov)))
      else none := by
  have := split_chunks_getElem? text h k (text.length + 1) 0 (by omega)
  simpa [split_chunks] using this

/-!
## Claims about the chunker
-/

/-- Claim C1 (code bug): the spec requires `split` to fail fast with a
`ConfigurationError` whenever `overlap ≥ chunk_size`, before producing
any chunk.  The source has no such check and no error path at all: for
every nonempty text and every `overlap ≥ chunk_size`, the
`split_text_into_chunks` loop never terminates — no fuel bound makes it
return, so it neither raises nor produces a result. -/
theorem claimC1 (text : Str) (chunk_size overlap : Int) (fuel : Nat)
    (hov : chunk_size ≤ overlap) (htext : text ≠ []) :
    split_text_into_chunks fuel text chunk_size overlap = none :=
  splitGoInt_invalid_none text chunk_size overlap hov htext fuel 0 (by omega)

/-- Witness for C1 at `text = "a"`, `chunk_size = overlap = 1`. -/
theorem claimC1_witness :
    (1 : Int) ≤ 1 ∧ ("a".toList : Str) ≠ [] ∧
      split_text_into_chunks 3 "a".toList 1 1 = none :=
  ⟨by decide, by decide, claimC1 "a".toList 1 1 3 (by decide) (by decide)⟩

/-- Claim C5: for every text and valid configuration, the union of the
half-open ranges of the produced chunks is exactly `[0, len(text))`, and
the empty text yields the empty chunk sequence. -/
theorem claimC5 (text : Str) (chunk_size overlap : Nat)
    (hcs : 0 < chunk_size) (hov : overlap < chunk_size) :
    (∀ k, k < text.length ↔
      ∃ c ∈ split_chunks text chunk_size overlap,
        c.start_offset ≤ k ∧ k < c.end_offset)
    ∧ split_chunks [] chunk_size overlap = [] := by
  clear hcs
  constructor
  · intro k
    constructor
    · intro hk
      exact split_chunks_go_covers text hov (text.length + 1) 0 (by omega) k (by omega) hk
    · rintro ⟨c, hc, _, hk⟩
      have := split_chunks_go_inrange text chunk_size overlap (text.length + 1) 0 c hc
      omega
  · simp [split_chunks, split_chunks_go]

/-- Witness for C5 at `chunk_size = 2`, `overlap = 1`. -/
theorem claimC5_witness :
    0 < 2 ∧ 1 < 2 ∧ split_chunks [] 2 1 = [] :=
  ⟨by decide, by decide, (claimC5 [] 2 1 (by decide) (by decide)).2⟩

/-- Claim C7: a text of length 4300 split with `chunk_size = 2000`,
`overlap = 100` yields exactly three chunks, starting at offsets 0, 1900
and 3800 and covering `text[0:2000]`, `text[1900:3900]` and
`text[3800:4300]`. -/
theorem claimC7 (text : Str) (h : text.length = 4300) :
    split_chunks text 2000 100 =
      [⟨0, 2000, text.take 2000⟩,
       ⟨1900, 3900, (text.drop 1900).take 2000⟩,
       ⟨3800, 4300, (text.drop 3800).take 2000⟩] := by
  apply List.ext_getElem?
  intro k
  rw [split_chunks_getElem?_zero text (by omega) k]
  match k with
  | 0 => simp [mkChunk, h]
  | 1 => simp [mkChunk, h]
  | 2 =>
    rw [if_pos (by omega)]
    simp [mkChunk, h]
  | (m + 3) =>
    rw [if_neg (by omega)]
    simp

/-- Witness for C7 on a concrete text of length 4300. -/
theorem claimC7_witness :
    (List.replicate 4300 'a').length = 4300 ∧
      split_chunks (List.replicate 4300 'a') 2000 100 =
        [⟨0, 2000, (List.replicate 4300 'a').take 2000⟩,
         ⟨1900, 3900, ((List.replicate 4300 'a').drop 1900).take 2000⟩,
         ⟨3800, 4300, ((List.replicate 4300 'a').drop 3800).take 2000⟩] :=
  ⟨List.length_replicate 4300 'a',
    claimC7 (List.replicate 4300 'a') (List.length_replicate 4300 'a')⟩

/-- Claim C9, corrected: the original claim (trailing `overlap`
characters of chunk `i` equal the leading `overlap` characters of chunk
`i+1` for every consecutive pair except possibly the last) fails when
chunk `i` is itself truncated by the end of the text; it holds for every
consecutive pair whose first chunk has full length `chunk_size`. -/
theorem claimC9 (text : Str) (chunk_size overlap : Nat) (i : Nat) (ci ci1 : Chunk)
    (hov : overlap < chunk_size)
    (hi : (split_chunks text chunk_size overlap)[i]? = some ci)
    (hi1 : (split_chunks text chunk_size overlap)[i + 1]? = some ci1)
    (hfull : ci.text.length = chunk_size) :
    ci.text.drop (ci.text.length - overlap) = ci1.text.take overlap := by
  rw [split_chunks_getElem?_zero text hov i] at hi
  rw [split_chunks_getElem?_zero text hov (i + 1)] at hi1
  by_cases hc : i * (chunk_size - overlap) < text.length
  swap
  · rw [if_neg hc] at hi; exact absurd hi (by simp)
  rw [if_pos hc] at hi
  by_cases hc1 : (i + 1) * (chunk_size - overlap) < text.length
  swap
  · rw [if_neg hc1] at hi1; exact absurd hi1 (by simp)
  rw [if_pos hc1] at hi1
  set s := i * (chunk_size - overlap) with hs
  have hs1 : (i + 1) * (chunk_size - overlap) = s + (chunk_size - overlap) := by
    rw [Nat.succ_mul]
  obtain rfl : ci = mkChunk text chunk_size s := by injection hi with h'; exact h'.symm
  obtain rfl : ci1 = mkChunk text chunk_size ((i + 1) * (chunk_size - overlap)) := by
    injection hi1 with h'; exact h'.symm
  have hlen : (mkChunk text chunk_size s).text.length =
      min chunk_size (text.length - s) := by
    simp [mkChunk]
  have hsn : s + chunk_size ≤ text.length := by
    rw [hfull] at hlen
    omega
  rw [hfull, hs1]
  simp only [mkChunk]
  rw [List.drop_take, List.drop_drop, List.take_take]
  congr 1
  omega

/-- Witness for C9 on `"abcdef"` with `chunk_size = 4`, `overlap = 3`,
pair (0, 1). -/
theorem claimC9_witness :
    (split_chunks "abcdef".toList 4 3)[0]? = some ⟨0, 4, "abcd".toList⟩ ∧
    (split_chunks "abcdef".toList 4 3)[1]? = some ⟨1, 5, "bcde".toList⟩ ∧
    ("abcd".toList : Str).length = 4 ∧
    ("abcd".toList : Str).drop (("abcd".toList : Str).length - 3) =
      ("bcde".toList : Str).take 3 :=
  ⟨by decide, by decide, by decide,
    claimC9 "abcdef".toList 4 3 0 ⟨0, 4, "abcd".toList⟩ ⟨1, 5, "bcde".toList⟩
      (by decide) (by decide) (by decide) (by decide)⟩

/-- Counterexample for C9 as stated: with `chunk_size = 4`, `overlap = 3`
on `"abcdef"` there are six chunks (so pairs `(i, i+1)` for `i ≤ 4`, the
last pair being `(4, 5)`); at the non-last pair `(3, 4)` the trailing 3
characters of chunk 3 (`"def"`) differ from the leading 3 characters of
chunk 4 (`"ef"`). -/
theorem claimC9_counterexample :
    (split_chunks "abcdef".toList 4 3).length = 6 ∧
    (split_chunks "abcdef".toList 4 3)[3]? = some ⟨3, 6, "def".toList⟩ ∧
    (split_chunks "abcdef".toList 4 3)[4]? = some ⟨4, 6, "ef".toList⟩ ∧
    3 ≠ (split_chunks "abcdef".toList 4 3).length - 2 ∧
    ("def".toList : Str).drop (("def".toList : Str).length - 3) ≠
      ("ef".toList : Str).take 3 := by
  decide

/-!
## Python string lemmas
-/

theorem dropWhile_dropWhile (p : Char → Bool) (l : Str) :
    (l.dropWhile p).dropWhile p = l.dropWhile p := by
  induction l with
  | nil => rfl
  | cons a l ih =>
    rw [List.dropWhile_cons]
    by_cases hp : p a = true
    · simp only [if_pos hp]
      exact ih
    · simp only [if_neg hp]
      rw [List.dropWhile_cons, if_neg hp]

theorem head?_dropWhile_false (p : Char → Bool) :
    ∀ (l : Str) {c : Char}, (l.dropWhile p).head? = some c → p c = false := by
  intro l
  induction l with
  | nil => intro c h; simp at h
  | cons a l ih =>
    intro c h
    rw [List.dropWhile_cons] at h
    by_cases hp : p a = true
    · rw [if_pos hp] at h
      exact ih h
    · rw [if_neg hp] at h
      simp at h
      rw [← h]
      simpa using hp

theorem getLast?_dropWhile (p : Char → Bool) :
    ∀ (l : Str), l.dropWhile p ≠ [] → (l.dropWhile p).getLast? = l.getLast? := by
  intro l
  induction l with
  | nil => intro h; simp at h
  | cons a l ih =>
    intro h
    rw [List.dropWhile_cons] at h ⊢
    by_cases hp : p a = true
    · rw [if_pos hp] at h ⊢
      have hl : l ≠ [] := by
        intro he
        subst he
        simp at h
      match l, hl with
      | b :: l', _ =>
        rw [List.getLast?_cons_cons]
        exact ih h
    · rw [if_neg hp]

theorem dropWhile_eq_self_of_head? (p : Char → Bool) (l : Str)
    (h : ∀ c, l.head? = some c → p c = false) :
    l.dropWhile p = l := by
  match l with
  | [] => rfl
  | a :: l =>
    rw [List.dropWhile_cons, if_neg]
    simp [h a rfl]

/-- The first character of a stripped string is not whitespace. -/
theorem pyStrip_head (s : Str) {c : Char} (h : (pyStrip s).head? = some c) :
    c.isWhitespace = false :=
  head?_dropWhile_false _ _ h

/-- The last character of a stripped string is not whitespace. -/
theorem pyStrip_last (s : Str) {c : Char} (h : (pyStrip s).getLast? = some c) :
    c.isWhitespace = false := by
  have hne : pyStrip s ≠ [] := by
    intro he
    rw [he] at h
    simp at h
  rw [pyStrip] at h hne
  rw [getLast?_dropWhile _ _ hne] at h
  rw [pyStripRight, List.getLast?_reverse] at h
  exact head?_dropWhile_false _ _ h

/-- `strip` is idempotent. -/
theorem pyStrip_idem (s : Str) : pyStrip (pyStrip s) = pyStrip s := by
  by_cases hne : pyStrip s = []
  · rw [hne]
    rfl
  · have hright : pyStripRight (pyStrip s) = pyStrip s := by
      rw [pyStripRight]
      have hlast : ∃ c, (pyStrip s).getLast? = some c := by
        match h : (pyStrip s).getLast? with
        | some c => exact ⟨c, rfl⟩
        | none => exact absurd (List.getLast?_eq_none_iff.mp h) hne
      obtain ⟨c, hc⟩ := hlast
      rw [dropWhile_eq_self_of_head? _ _ ?_, List.reverse_reverse]
      intro c' hc'
      rw [List.head?_reverse, hc] at hc'
      obtain rfl : c = c' := by injection hc'
      exact pyStrip_last s hc
    conv_lhs => rw [pyStrip, hright]
    apply dropWhile_eq_self_of_head?
    intro c hc
    exact pyStrip_head s hc

/-- The dedup key of an already-stripped entry is unchanged. -/
theorem pyNorm_pyStrip (s : Str) : pyNorm (pyStrip s) = pyNorm s := by
  rw [pyNorm, pyStrip_idem]
  rfl

theorem pyNorm_nil : pyNorm [] = [] := rfl

/-!
## Dedup lemmas
-/

/-- Entries produced by the dedup loop are stripped, have a nonempty key,
and their keys avoid `seen` and are pairwise distinct. -/
theorem dedupGo_spec :
    ∀ (items seen : List Str),
      (∀ x ∈ dedupGo seen items, pyStrip x = x ∧ pyNorm x ≠ [] ∧ pyNorm x ∉ seen)
      ∧ (dedupGo seen items).Pairwise (fun a b => pyNorm a ≠ pyNorm b) := by
  intro items
  induction items with
  | nil =>
    intro seen
    constructor
    · intro x hx
      simp [dedupGo] at hx
    · simp [dedupGo]
  | cons item rest ih =>
    intro seen
    rw [dedupGo]
    by_cases hk : pyNorm item ≠ [] ∧ pyNorm item ∉ seen
    · rw [if_pos hk]
      obtain ⟨ihmem, ihpw⟩ := ih (pyNorm item :: seen)
      constructor
      · intro x hx
        rcases List.mem_cons.mp hx with rfl | hx
        · exact ⟨pyStrip_idem item, by rw [pyNorm_pyStrip]; exact hk.1,
            by rw [pyNorm_pyStrip]; exact hk.2⟩
        · obtain ⟨h1, h2, h3⟩ := ihmem x hx
          exact ⟨h1, h2, fun hc => h3 (List.mem_cons_of_mem _ hc)⟩
      · rw [List.pairwise_cons]
        refine ⟨?_, ihpw⟩
        intro y hy
        obtain ⟨_, _, h3⟩ := ihmem y hy
        rw [pyNorm_pyStrip]
        intro he
        exact h3 (by rw [← he]; exact List.mem_cons_self _ _)
    · rw [if_neg hk]
      exact ih seen

/-- Every entry with a fresh nonempty key is represented (up to
normalization) in the dedup output. -/
theorem dedupGo_covers :
    ∀ (items seen : List Str) (x : Str), x ∈ items →
      pyNorm x ≠ [] → pyNorm x ∉ seen →
      ∃ y ∈ dedupGo seen items, pyNorm y = pyNorm x := by
  intro items
  induction items with
  | nil => intro seen x hx; simp at hx
  | cons item rest ih =>
    intro seen x hx hnx hns
    rw [dedupGo]
    by_cases hk : pyNorm item ≠ [] ∧ pyNorm item ∉ seen
    · rw [if_pos hk]
      by_cases hxi : pyNorm x = pyNorm item
      · exact ⟨pyStrip item, List.mem_cons_self _ _, by rw [pyNorm_pyStrip, hxi]⟩
      · rcases List.mem_cons.mp hx with rfl | hx'
        · exact absurd rfl hxi
        · obtain ⟨y, hy, hyx⟩ := ih (pyNorm item :: seen) x hx' hnx (by
            intro hc
            rcases List.mem_cons.mp hc with hc | hc
            · exact hxi hc
            · exact hns hc)
          exact ⟨y, List.mem_cons_of_mem _ hy, hyx⟩
    · rw [if_neg hk]
      rcases List.mem_cons.mp hx with rfl | hx'
      · exact absurd ⟨hnx, hns⟩ hk
      · exact ih seen x hx' hnx hns

/-- A list that already satisfies the dedup output invariant is left
unchanged by the dedup loop. -/
theorem dedupGo_eq_self :
    ∀ (l seen : List Str),
      (∀ x ∈ l, pyStrip x = x ∧ pyNorm x ≠ [] ∧ pyNorm x ∉ seen) →
      l.Pairwise (fun a b => pyNorm a ≠ pyNorm b) →
      dedupGo seen l = l := by
  intro l
  induction l with
  | nil => intro seen _ _; rfl
  | cons x rest ih =>
    intro seen hmem hpw
    obtain ⟨hx1, hx2, hx3⟩ := hmem x (List.mem_cons_self _ _)
    rw [dedupGo, if_pos ⟨hx2, hx3⟩, hx1]
    congr 1
    apply ih
    · intro y hy
      obtain ⟨h1, h2, h3⟩ := hmem y (List.mem_cons_of_mem _ hy)
      refine ⟨h1, h2, ?_⟩
      intro hc
      rcases List.mem_cons.mp hc with hc | hc
      · exact (List.pairwise_cons.mp hpw).1 y hy hc.symm
      · exact h3 hc
    · exact (List.pairwise_cons.mp hpw).2

/-- `deduplicate` is idempotent. -/
theorem deduplicate_idem (items : List Str) :
    deduplicate (deduplicate items) = deduplicate items := by
  obtain ⟨hmem, hpw⟩ := dedupGo_spec items []
  apply dedupGo_eq_self
  · intro x hx
    obtain ⟨h1, h2, _⟩ := hmem x hx
    exact ⟨h1, h2, by simp⟩
  · exact hpw

/-- The dedup loop with a running seen set computes the first-occurrence
reference function on the entries whose key is not yet seen. -/
theorem dedupGo_eq_spec :
    ∀ (items seen : List Str),
      dedupGo seen items =
        dedupSpecFirst (items.filter fun y => decide (pyNorm y ∉ seen)) := by
  intro items
  induction items with
  | nil =>
    intro seen
    rw [List.filter_nil]
    simp only [dedupSpecFirst]
    rfl
  | cons item rest ih =>
    intro seen
    by_cases hseen : pyNorm item ∈ seen
    · rw [dedupGo, if_neg (by tauto), List.filter_cons, if_neg (by simp [hseen])]
      exact ih seen
    · rw [List.filter_cons, if_pos (by simp [hseen])]
      by_cases hnil : pyNorm item = []
      · rw [dedupGo, if_neg (by tauto)]
        have hspec : dedupSpecFirst (item :: rest.filter fun y => decide (pyNorm y ∉ seen))
            = dedupSpecFirst (rest.filter fun y => decide (pyNorm y ∉ seen)) := by
          simp only [dedupSpecFirst]
          rw [if_pos hnil]
        rw [hspec]
        exact ih seen
      · rw [dedupGo, if_pos ⟨hnil, hseen⟩]
        have hspec : dedupSpecFirst (item :: rest.filter fun y => decide (pyNorm y ∉ seen))
            = pyStrip item ::
              dedupSpecFirst ((rest.filter fun y => decide (pyNorm y ∉ seen)).filter
                fun y => decide (pyNorm y ≠ pyNorm item)) := by
          simp only [dedupSpecFirst]
          rw [if_neg hnil]
        rw [hspec]
        congr 1
        rw [ih (pyNorm item :: seen)]
        congr 1
        rw [List.filter_filter]
        apply List.filter_congr
        intro y _
        by_cases h1 : pyNorm y = pyNorm item <;> by_cases h2 : pyNorm y ∈ seen <;>
          simp [h1, h2]

/-- The source `deduplicate` equals the spec's first-occurrence
description. -/
theorem deduplicate_eq_spec (items : List Str) :
    deduplicate items = dedupSpecFirst items := by
  rw [deduplicate, dedupGo_eq_spec]
  congr 1
  apply List.filter_eq_self.mpr
  intro a _
  simp

/-!
## Flattening lemmas
-/

theorem foldl_append_eq (f : News → List Str) :
    ∀ (rs : List News) (acc : List Str),
      rs.foldl (fun a r => a ++ f r) acc = acc ++ (rs.map f).flatten := by
  intro rs
  induction rs with
  | nil => intro acc; simp
  | cons r rs ih =>
    intro acc
    simp only [List.foldl_cons, List.map_cons, List.flatten_cons]
    rw [ih, List.append_assoc]

theorem allOf_eq_flatten (f : News → List Str) (rs : List News) :
    allOf f rs = (rs.map f).flatten := by
  rw [allOf, foldl_append_eq]
  rfl

theorem allOf_singleton (f : News → List Str) (r : News) :
    allOf f [r] = f r := by
  rw [allOf_eq_flatten]
  simp

theorem mem_allOf (f : News → List Str) (rs : List News) (r : News) (x : Str)
    (hr : r ∈ rs) (hx : x ∈ f r) : x ∈ allOf f rs := by
  rw [allOf_eq_flatten, List.mem_flatten]
  exact ⟨f r, List.mem_map_of_mem f hr, hx⟩

/-- The slot-array of `asyncio.gather`: after all completions, slot `j`
holds the result of task `j` if task `j` completed, independently of the
completion order. -/
theorem foldl_set_getElem? (f : Nat → News) :
    ∀ (order : List Nat) (init : List (Option News)) (j : Nat),
      (order.foldl (fun acc i => acc.set i (some (f i))) init)[j]? =
        if j ∈ order ∧ j < init.length then some (some (f j)) else init[j]? := by
  intro order
  induction order with
  | nil => intro init j; simp
  | cons i rest ih =>
    intro init j
    rw [List.foldl_cons, ih, List.length_set]
    by_cases hjr : j ∈ rest ∧ j < init.length
    · rw [if_pos hjr, if_pos ⟨List.mem_cons_of_mem _ hjr.1, hjr.2⟩]
    · rw [if_neg hjr, List.getElem?_set]
      by_cases hij : i = j
      · subst hij
        by_cases hlen : i < init.length
        · rw [if_pos rfl, if_pos hlen, if_pos ⟨List.mem_cons_self _ _, hlen⟩]
        · rw [if_pos rfl, if_neg hlen, if_neg (by tauto)]
          exact (List.getElem?_eq_none (by omega)).symm
      · rw [if_neg hij, if_neg (by
          rintro ⟨hmem, hlen⟩
          rcases List.mem_cons.mp hmem with h | h
          · exact hij h.symm
          · exact hjr ⟨h, hlen⟩)]

/-!
## Claims about the merger, the pool and the consolidation stage
-/

/-- Claim C6: `merge_news_results` deduplicates each category by the
trim-and-casefold key, iterating the results in chunk-index order after
flattening, keeps the (trimmed) first original-cased occurrence of each
key and drops entries whose normalized form is empty — stated as equality
with the reference function `dedupSpecFirst`; merging `["Ecopetrol"]`
with `[" ecopetrol "]` yields exactly `["Ecopetrol"]`. -/
theorem claimC6 :
    (∀ results : List News,
      merge_news_results results =
        { companies := dedupSpecFirst (allOf News.companies results)
          persons := dedupSpecFirst (allOf News.persons results)
          events := dedupSpecFirst (allOf News.events results) })
    ∧ merge_news_results
        [⟨["Ecopetrol".toList], [], []⟩, ⟨[" ecopetrol ".toList], [], []⟩] =
      ⟨["Ecopetrol".toList], [], []⟩ := by
  constructor
  · intro results
    simp only [merge_news_results, deduplicate_eq_spec]
  · decide

/-- Claim C8: `merge_news_results` is idempotent — re-wrapping its output
as a single partial result and merging again returns the same value. -/
theorem claimC8 (results : List News) :
    merge_news_results [merge_news_results results] = merge_news_results results := by
  simp only [merge_news_results, allOf_singleton, deduplicate_idem]

/-- Claim C10: every category list of `merge_news_results` contains only
nonempty, whitespace-trimmed entries with pairwise distinct normalized
keys, for every input (including empty and whitespace-only entries). -/
theorem claimC10 (results : List News) :
    cleanList (merge_news_results results).companies ∧
    cleanList (merge_news_results results).persons ∧
    cleanList (merge_news_results results).events := by
  have key : ∀ items : List Str, cleanList (deduplicate items) := by
    intro items
    obtain ⟨hmem, hpw⟩ := dedupGo_spec items []
    constructor
    · intro x hx
      obtain ⟨h1, h2, _⟩ := hmem x hx
      refine ⟨?_, h1⟩
      intro he
      subst he
      exact h2 pyNorm_nil
    · exact hpw
  exact ⟨key _, key _, key _⟩

/-- Claim C4: the worker pool's output is indexed by original chunk
order: under any completion order that completes every task, the filled
slot sequence equals the in-order per-chunk results. -/
theorem claimC4 (chunks : List Str) (extract : Str → Except String News)
    (order : List Nat) (hall : ∀ i, i < chunks.length → i ∈ order) :
    worker_pool_run chunks extract order =
      (worker_pool_results chunks extract).map some := by
  apply List.ext_getElem?
  intro j
  rw [worker_pool_run, gather_collect, foldl_set_getElem?, List.length_replicate]
  by_cases hj : j < chunks.length
  · rw [if_pos ⟨hall j hj, hj⟩]
    rw [worker_pool_results, List.getElem?_map, List.getElem?_map,
      List.getElem?_eq_getElem hj]
    rw [List.getD_eq_getElem?_getD, List.getElem?_eq_getElem hj]
    rfl
  · rw [if_neg (by tauto), List.getElem?_replicate, if_neg hj]
    symm
    apply List.getElem?_eq_none
    simp only [List.length_map, worker_pool_results]
    omega

/-- Witness for C4: two chunks completing in reversed order `[1, 0]`. -/
theorem claimC4_witness :
    worker_pool_run ["a".toList, "b".toList] extractEcho [1, 0] =
      (worker_pool_results ["a".toList, "b".toList] extractEcho).map some :=
  claimC4 ["a".toList, "b".toList] extractEcho [1, 0] (by decide)

/-- Claim C3, corrected: in the async extractor a failing chunk is caught
locally and contributes an all-empty `News` entry (the result type has no
`failed` flag), the pool still returns one entry per chunk, and the union
merge of the pool's results contains (up to normalization) every
nonempty-keyed entry of every non-failing chunk. -/
theorem claimC3 (chunks : List Str) (extract : Str → Except String News) :
    (worker_pool_results chunks extract).length = chunks.length
    ∧ (∀ (i : Nat) (c : Str), chunks[i]? = some c → (extract c).isOk = false →
        (worker_pool_results chunks extract)[i]? = some emptyNews)
    ∧ (∀ (c : Str) (n : News), c ∈ chunks → extract c = .ok n →
        (∀ x ∈ n.companies, pyNorm x ≠ [] →
          ∃ y ∈ (merge_news_results (worker_pool_results chunks extract)).companies,
            pyNorm y = pyNorm x)
        ∧ (∀ x ∈ n.persons, pyNorm x ≠ [] →
          ∃ y ∈ (merge_news_results (worker_pool_results chunks extract)).persons,
            pyNorm y = pyNorm x)
        ∧ (∀ x ∈ n.events, pyNorm x ≠ [] →
          ∃ y ∈ (merge_news_results (worker_pool_results chunks extract)).events,
            pyNorm y = pyNorm x)) := by
  refine ⟨List.length_map _ _, ?_, ?_⟩
  · intro i c hc hfail
    rw [worker_pool_results, List.getElem?_map, hc]
    have hpc : process_chunk extract c = emptyNews := by
      rw [process_chunk]
      cases he : extract c with
      | ok n => rw [he] at hfail; simp [Except.isOk, Except.toBool] at hfail
      | error e => rfl
    simp [hpc]
  · intro c n hc hn
    have hproc : process_chunk extract c = n := by rw [process_chunk, hn]
    have hmemres : n ∈ worker_pool_results chunks extract := by
      rw [worker_pool_results, ← hproc]
      exact List.mem_map_of_mem _ hc
    have key : ∀ (g : News → List Str) (x : Str), x ∈ g n → pyNorm x ≠ [] →
        ∃ y ∈ deduplicate (allOf g (worker_pool_results chunks extract)),
          pyNorm y = pyNorm x := by
      intro g x hx hnx
      exact dedupGo_covers _ [] x (mem_allOf g _ n x hmemres hx) hnx (by simp)
    exact ⟨fun x hx hnx => key News.companies x hx hnx,
           fun x hx hnx => key News.persons x hx hnx,
           fun x hx hnx => key News.events x hx hnx⟩

/-- Witness for C3 with a failing first chunk. -/
theorem claimC3_witness :
    (worker_pool_results ["a".toList, "b".toList] extractFailOnA).length =
      (["a".toList, "b".toList] : List Str).length ∧
    (worker_pool_results ["a".toList, "b".toList] extractFailOnA)[0]? =
      some emptyNews :=
  ⟨(claimC3 ["a".toList, "b".toList] extractFailOnA).1,
    (claimC3 ["a".toList, "b".toList] extractFailOnA).2.1 0 "a".toList
      (by decide) (by decide)⟩

/-- Counterexample for C3 as stated: the sequential pipeline
(`run_news_extraction`, one of the claim's sources) skips the entry of a
chunk whose extraction raises — two chunks with a failing first chunk
produce one result, not one per chunk. -/
theorem claimC3_counterexample :
    (run_news_extraction_results invokeFailOnA parseBeta
      ["a".toList, "b".toList]).length = 1 ∧
    (["a".toList, "b".toList] : List Str).length = 2 := by
  decide

/-- Claim C2, corrected: when the consolidation primitive fails on every
input, `consolidate_results` propagates that failure, and
`NewsExtractor.run` on nonempty content fails with it as well — there is
no fallback to the union merge. -/
theorem claimC2 (splitter : Str → List Str) (extract : Str → Except String News)
    (consolidate : List Str → List Str → List Str → Except String ConsolidatedNews)
    (content : Str) (e : String)
    (hc : content ≠ [])
    (hfail : ∀ a b c, consolidate a b c = .error e) :
    NewsExtractor_run splitter extract consolidate content = .error e ∧
    consolidate_results consolidate
      (worker_pool_results (splitter content) extract) = .error e := by
  have hcr : consolidate_results consolidate
      (worker_pool_results (splitter content) extract) = .error e := by
    rw [consolidate_results, hfail]
  refine ⟨?_, hcr⟩
  rw [NewsExtractor_run, if_neg hc, hcr]

/-- Witness for C2 on one-chunk content `"x"`. -/
theorem claimC2_witness :
    ("x".toList : Str) ≠ [] ∧
    NewsExtractor_run splitterSingleton extractEcho consolidateFail "x".toList =
      .error "boom" :=
  ⟨by decide,
    (claimC2 splitterSingleton extractEcho consolidateFail "x".toList "boom"
      (by decide) (fun _ _ _ => rfl)).1⟩

/-- Counterexample for C2 as stated: with a failing consolidation
primitive the stage returns the raised error — not the union merge with
the summary omitted — and the pipeline run fails instead of reaching
`Done`. -/
theorem claimC2_counterexample :
    consolidate_results consolidateFail [⟨["A".toList], [], []⟩] =
      .error "boom" ∧
    NewsExtractor_run splitterSingleton extractEcho consolidateFail "x".toList =
      .error "boom" := by
  constructor <;> rfl

end NewsPipeline
